import Mathlib

/-!
Shallow embedding of the Tile Cache Engine of `src/frontend/src/components/TileViewer.tsx`
(the viewport-driven progressive tile cache: zone classifier, fetch scheduler, cache and
eviction).  JavaScript numbers are modelled by exact rationals (`Rat`); all pan offsets,
tile dimensions and margins in the component are produced by `+`, `-`, `*`, `/`, `Math.floor`
and `Math.ceil` on such values, so `Rat` with `Int.floor` / `Int.ceil` models them exactly
at every magnitude the component can reach.  Grid indices (row / col) are `Int`.
Asynchronous network outcomes are modelled by an oracle `ok : TKey → Bool` saying whether
the image request for a key succeeds.
-/

namespace TileViewer

/-- Tile resolution tier; the source uses the strings "high" and "low"
(the `type` union of "high" and "low", TileViewer.tsx line 27). -/
inductive TileType where
  | high
  | low
deriving DecidableEq, Repr

/-- The tile-grid metadata returned by `GET /api/tiles/meta` (TileViewer.tsx lines 7-21).
The `extensions` / `previewWidth` / `previewHeight` / `previewExtensions` fields are never
read by the tile engine and are omitted. -/
structure TileMeta where
  minRow : Int
  maxRow : Int
  minCol : Int
  maxCol : Int
  tileWidth : Rat
  tileHeight : Rat
  centerRow : Int
  centerCol : Int
  hasPreview : Bool
deriving DecidableEq, Repr

/-- A resident cache entry (`type Tile`, TileViewer.tsx lines 23-29).  The `distance` field
stores the squared Euclidean distance: the source stores
`Math.sqrt(dx*dx + dy*dy)`, and `sqrt` is strictly monotone on nonnegatives, so every
comparison or ordering the component performs on distances coincides with the comparison
of the squares kept here. -/
structure Tile where
  row : Int
  col : Int
  url : String
  type : TileType
  distance : Rat
deriving DecidableEq, Repr

/-- Cache / in-flight key.  The source encodes it as the string
`` `${type}_${row}_${col}` `` (lines 86, 162, 167, 185); that encoding is injective in
`(type, row, col)` (the decimal prints of the integers contain no underscore), so the key
is modelled by the triple itself. -/
structure TKey where
  type : TileType
  row : Int
  col : Int
deriving DecidableEq, Repr

/-- Viewport constants (TileViewer.tsx lines 53-56). -/
def viewportWidth : Rat := 1024

def viewportHeight : Rat := 512

def viewportCenterX : Rat := viewportWidth / 2

def viewportCenterY : Rat := viewportHeight / 2

/-- Zone constants in pixels from the viewport edges (TileViewer.tsx lines 31-34). -/
def HIGHRES_MARGIN : Rat := 0

def LOWRES_MARGIN : Rat := 768

def CLEANUP_MARGIN : Rat := 3096

/-- `calculateTileDistance` (lines 59-65) with the final `Math.sqrt` dropped: the squared
distance from the geometric center of the tile to the given world point (see `Tile.distance`). -/
def calculateTileDistanceSq (row col : Int) (centerX centerY tileWidth tileHeight : Rat) :
    Rat :=
  let tileCenterX := (col : Rat) * tileWidth + tileWidth / 2
  let tileCenterY := (row : Rat) * tileHeight + tileHeight / 2
  let dx := tileCenterX - centerX
  let dy := tileCenterY - centerY
  dx * dx + dy * dy

/-- `isTileInZone` (lines 68-82): strict rectangle-overlap test between the tile rectangle
and the viewport rectangle expanded by `margin` on every side. -/
def isTileInZone (row col : Int) (panX panY tileWidth tileHeight margin : Rat) : Bool :=
  let tileLeft := (col : Rat) * tileWidth
  let tileRight := ((col : Rat) + 1) * tileWidth
  let tileTop := (row : Rat) * tileHeight
  let tileBottom := ((row : Rat) + 1) * tileHeight
  let zoneLeft := panX - margin
  let zoneRight := panX + viewportWidth + margin
  let zoneTop := panY - margin
  let zoneBottom := panY + viewportHeight + margin
  decide (tileRight > zoneLeft) && decide (tileLeft < zoneRight) &&
    decide (tileBottom > zoneTop) && decide (tileTop < zoneBottom)

/-- The tile cache `tilesMapRef : Map<string, Tile>` (line 47), as an association list in
insertion order (JS `Map` preserves insertion order). -/
abbrev TilesMap := List (TKey × Tile)

/-- `Map.has`. -/
def mapHas (m : TilesMap) (k : TKey) : Bool :=
  m.any fun p => decide (p.1 = k)

/-- `Map.set`: replaces the value of an existing key in place, otherwise appends. -/
def mapSet (m : TilesMap) (k : TKey) (t : Tile) : TilesMap :=
  if mapHas m k then m.map (fun p => if p.1 = k then (k, t) else p) else m ++ [(k, t)]

/-- `Map.delete`. -/
def mapDelete (m : TilesMap) (k : TKey) : TilesMap :=
  m.filter fun p => decide (p.1 ≠ k)

/-- `keyOf ty r c` is the cache key the source writes as `` `${ty}_${r}_${c}` ``. -/
def keyOf (ty : TileType) (row col : Int) : TKey := ⟨ty, row, col⟩

/-- A classified tile request `{row, col, distance}` as pushed by the scan loop
(lines 147, 149). -/
structure TileReq where
  row : Int
  col : Int
  distance : Rat
deriving DecidableEq, Repr

/-- The image URL used for a request (line 97). -/
def endpoint (ty : TileType) (row col : Int) : String :=
  match ty with
  | .high => "/api/tiles/" ++ toString row ++ "/" ++ toString col
  | .low => "/api/tiles/preview/" ++ toString row ++ "/" ++ toString col

/-- Mutable state owned by the component: the in-flight set `loadingTilesRef` (line 50),
the tile cache `tilesMapRef` (line 47), the number of `forceUpdate` change signals emitted
(line 44 / 191), and the keys for which `console.warn` has been called (lines 108, 115). -/
structure LoadState where
  loading : List TKey
  tiles : TilesMap
  signals : Nat
  warned : List TKey
deriving DecidableEq, Repr

/-- The synchronous prefix of `loadTile` (lines 85-93): the dedup guard and registration in
the in-flight set.  Returns the updated in-flight set together with `some key` when a
request was actually issued, `none` when the guard returned early (key already loading or
already resident in the map). -/
def loadTileIssue (loading : List TKey) (tiles : TilesMap) (ty : TileType) (t : TileReq) :
    List TKey × Option TKey :=
  let key := keyOf ty t.row t.col
  if key ∈ loading ∨ mapHas tiles key = true then (loading, none)
  else (key :: loading, some key)

/-- Completion of `loadTile` (lines 100-112), the `img.onload` / `img.onerror` handler:
removes the key from the in-flight set and resolves the `Tile` on success, or logs a
warning and resolves `null` on failure.  A call that never issued (`issued = none`)
resolves `null` with no state change (line 90). -/
def loadTileResolve (ok : TKey → Bool) (st : LoadState) (ty : TileType) (t : TileReq)
    (issued : Option TKey) : LoadState × Option Tile :=
  match issued with
  | none => (st, none)
  | some key =>
    if ok key then
      ({ st with loading := st.loading.erase key },
        some { row := t.row, col := t.col, url := endpoint ty t.row t.col, type := ty,
               distance := t.distance })
    else
      ({ st with loading := st.loading.erase key, warned := key :: st.warned }, none)

/-- Dispatch phase of one batch, `batch.map(t => loadTile(...))` (line 178): the
synchronous part of every `loadTile` call runs in array order before any request resolves,
so each call sees the in-flight registrations of the previous ones, while the cache is the
one from the start of the batch (installs only happen after the whole batch is awaited). -/
def issueBatch (tiles : TilesMap) (ty : TileType) :
    List TKey → List TileReq → List TKey × List (TileReq × Option TKey)
  | loading, [] => (loading, [])
  | loading, t :: ts =>
    let r := loadTileIssue loading tiles ty t
    let rest := issueBatch tiles ty r.1 ts
    (rest.1, (t, r.2) :: rest.2)

/-- Resolution phase of one batch (`await Promise.all(...)`, line 177): every issued
request completes, in array order. -/
def resolveBatch (ok : TKey → Bool) (ty : TileType) :
    LoadState → List (TileReq × Option TKey) → LoadState × List (Option Tile)
  | st, [] => (st, [])
  | st, p :: ps =>
    let r := loadTileResolve ok st ty p.1 p.2
    let rest := resolveBatch ok ty r.1 ps
    (rest.1, r.2 :: rest.2)

/-- Install the non-null results of a batch into the cache
(`batchResults.forEach(...)`, lines 183-188). -/
def installResults (m : TilesMap) (rs : List (Option Tile)) : TilesMap :=
  rs.foldl
    (fun acc r =>
      match r with
      | some tile => mapSet acc (keyOf tile.type tile.row tile.col) tile
      | none => acc)
    m

/-- One iteration of the batch loop body of `loadInBatches` (lines 176-191): dispatch the
whole batch, await it, install the successful tiles into the cache, and emit one
`forceUpdate` change signal. -/
def runBatch (ok : TKey → Bool) (ty : TileType) (st : LoadState) (batch : List TileReq) :
    LoadState × List (Option Tile) :=
  let issued := issueBatch st.tiles ty st.loading batch
  let resolved := resolveBatch ok ty { st with loading := issued.1 } issued.2
  ({ resolved.1 with
      tiles := installResults resolved.1.tiles resolved.2,
      signals := resolved.1.signals + 1 },
    resolved.2)

/-- `BATCH_SIZE` (line 172). -/
def BATCH_SIZE : Nat := 12

/-- Slicing loop with explicit fuel (the loop advances `i` by `BATCH_SIZE` each pass, so
`l.length` passes always suffice). -/
def chunksGo : Nat → List TileReq → List (List TileReq)
  | _, [] => []
  | 0, _ :: _ => []
  | fuel + 1, t :: ts => (t :: ts).take BATCH_SIZE :: chunksGo fuel ((t :: ts).drop BATCH_SIZE)

/-- The consecutive slices `tiles.slice(i, i + BATCH_SIZE)` taken by the batch loop
(lines 175-176). -/
def chunks (l : List TileReq) : List (List TileReq) :=
  chunksGo l.length l

/-- Run a list of batches in order, each fully awaited before the next starts. -/
def runBatchesList (ok : TKey → Bool) (ty : TileType) : LoadState → List (List TileReq) → LoadState
  | st, [] => st
  | st, b :: bs => runBatchesList ok ty (runBatch ok ty st b).1 bs

/-- `loadInBatches` (lines 173-194): split the request list into `BATCH_SIZE`-sized slices
and run them sequentially.  The returned results array is ignored by the caller, so only
the final state is kept. -/
def loadInBatches (ok : TKey → Bool) (ty : TileType) (st : LoadState) (tiles : List TileReq) :
    LoadState :=
  runBatchesList ok ty st (chunks tiles)

/-- The state after the first `k` batches of `loadInBatches` have completed. -/
def stateAfterBatches (ok : TKey → Bool) (ty : TileType) (st : LoadState)
    (tiles : List TileReq) (k : Nat) : LoadState :=
  runBatchesList ok ty st ((chunks tiles).take k)

/-- `scanTilesX` (line 131). -/
def scanTilesX (meta : TileMeta) : Int :=
  ⌈(viewportWidth + CLEANUP_MARGIN * 2) / meta.tileWidth⌉ + 2

/-- `scanTilesY` (line 132). -/
def scanTilesY (meta : TileMeta) : Int :=
  ⌈(viewportHeight + CLEANUP_MARGIN * 2) / meta.tileHeight⌉ + 2

/-- `centerRow` (line 133): the grid row of the world center of the viewport. -/
def centerRowOf (meta : TileMeta) (panY : Rat) : Int :=
  ⌊(panY + viewportCenterY) / meta.tileHeight⌋

/-- `centerCol` (line 134). -/
def centerColOf (meta : TileMeta) (panX : Rat) : Int :=
  ⌊(panX + viewportCenterX) / meta.tileWidth⌋

/-- `n` consecutive integers counting up from `a`. -/
def intRangeGo (a : Int) : Nat → List Int
  | 0 => []
  | n + 1 => a :: intRangeGo (a + 1) n

/-- The inclusive integer range `[a, b]` as a list, in increasing order: the index sequence
of a `for (i = a; i <= b; i++)` loop. -/
def intRange (a b : Int) : List Int :=
  intRangeGo a (b + 1 - a).toNat

/-- The scan window enumerated by the nested `for` loops of `updateTiles` (lines 136-137),
in row-major visit order. -/
def scanIndices (meta : TileMeta) (panX panY : Rat) : List (Int × Int) :=
  (intRange (centerRowOf meta panY - scanTilesY meta)
      (centerRowOf meta panY + scanTilesY meta)).flatMap
    fun row =>
      (intRange (centerColOf meta panX - scanTilesX meta)
          (centerColOf meta panX + scanTilesX meta)).map
        fun col => (row, col)

/-- Negation of the bounds check that `continue`s past nonexistent tiles (line 139). -/
def inBoundsB (meta : TileMeta) (row col : Int) : Bool :=
  !(decide (row < meta.minRow) || decide (row > meta.maxRow) ||
    decide (col < meta.minCol) || decide (col > meta.maxCol))

/-- The `{row, col, distance}` record built for a scanned tile (line 143). -/
def tileReqOf (meta : TileMeta) (panX panY : Rat) (rc : Int × Int) : TileReq :=
  { row := rc.1, col := rc.2,
    distance := calculateTileDistanceSq rc.1 rc.2 (panX + viewportCenterX)
      (panY + viewportCenterY) meta.tileWidth meta.tileHeight }

/-- `highResTiles` as pushed by the scan loop (lines 136-152): the existing tiles of the
scan window whose rectangle overlaps the bare viewport, in visit order.  (A `push` inside
a row-major loop under a condition builds exactly the filter of the row-major index list.) -/
def highResTilesOf (meta : TileMeta) (panX panY : Rat) : List TileReq :=
  ((scanIndices meta panX panY).filter fun rc =>
      inBoundsB meta rc.1 rc.2 &&
        isTileInZone rc.1 rc.2 panX panY meta.tileWidth meta.tileHeight HIGHRES_MARGIN).map
    (tileReqOf meta panX panY)

/-- `lowResTiles` as pushed by the scan loop (lines 136-152): existing, not in the
high-res zone (the `else if`), in the low-res zone, and only when the tileset has
previews. -/
def lowResTilesOf (meta : TileMeta) (panX panY : Rat) : List TileReq :=
  ((scanIndices meta panX panY).filter fun rc =>
      inBoundsB meta rc.1 rc.2 &&
        !isTileInZone rc.1 rc.2 panX panY meta.tileWidth meta.tileHeight HIGHRES_MARGIN &&
        (isTileInZone rc.1 rc.2 panX panY meta.tileWidth meta.tileHeight LOWRES_MARGIN &&
          meta.hasPreview)).map
    (tileReqOf meta panX panY)

/-- Stable insertion of a request into a distance-sorted list: it goes after every entry
with distance ≤ its own, as ES2019 `Array.prototype.sort` is stable. -/
def insertByDist (t : TileReq) : List TileReq → List TileReq
  | [] => [t]
  | u :: us => if t.distance < u.distance then t :: u :: us else u :: insertByDist t us

/-- `arr.sort((a, b) => a.distance - b.distance)` (lines 155-156): stable ascending sort
by distance. -/
def sortByDist (l : List TileReq) : List TileReq :=
  l.foldr insertByDist []

/-- `highResToLoad` (lines 161-164): the sorted visible tiles not already resident. -/
def highResToLoadOf (meta : TileMeta) (panX panY : Rat) (m : TilesMap) : List TileReq :=
  (sortByDist (highResTilesOf meta panX panY)).filter fun t =>
    !mapHas m (keyOf .high t.row t.col)

/-- `lowResToLoad` (lines 166-169). -/
def lowResToLoadOf (meta : TileMeta) (panX panY : Rat) (m : TilesMap) : List TileReq :=
  (sortByDist (lowResTilesOf meta panX panY)).filter fun t =>
    !mapHas m (keyOf .low t.row t.col)

/-- `tilesToRemove` (lines 205-211): the keys of resident entries whose tile lies outside
the cleanup zone. -/
def tilesToRemoveOf (m : TilesMap) (meta : TileMeta) (panX panY : Rat) : List TKey :=
  (m.filter fun p =>
      !isTileInZone p.2.row p.2.col panX panY meta.tileWidth meta.tileHeight CLEANUP_MARGIN).map
    fun p => p.1

/-- One refresh cycle, `updateTiles` (lines 121-214): classify and sort, diff against the
cache, load the visible tier in batches, load the preview tier in batches, then evict the
out-of-zone keys.  In the source the preview-tier `loadInBatches` call is not awaited
(line 201), so its installs may land after the eviction sweep; it is sequenced before the
sweep here, which produces the same final state because every preview-band tile lies
inside the cleanup zone and loads never remove entries. -/
def updateTiles (ok : TKey → Bool) (meta : TileMeta) (panX panY : Rat) (st : LoadState) :
    LoadState :=
  let hi := highResToLoadOf meta panX panY st.tiles
  let lo := lowResToLoadOf meta panX panY st.tiles
  let st1 := loadInBatches ok .high st hi
  let st2 := if lo.length > 0 ∧ meta.hasPreview = true then loadInBatches ok .low st1 lo else st1
  let rem := tilesToRemoveOf st2.tiles meta panX panY
  { st2 with tiles := rem.foldl (fun m k => mapDelete m k) st2.tiles }

/-- A tile index is Visible when its rectangle overlaps the bare viewport (zero margin,
line 146). -/
def VisibleAt (meta : TileMeta) (panX panY : Rat) (row col : Int) : Prop :=
  isTileInZone row col panX panY meta.tileWidth meta.tileHeight HIGHRES_MARGIN = true

/-- A tile index is in the Preview band when it is not Visible but overlaps the viewport
expanded by `LOWRES_MARGIN`, and the tileset has previews (line 148). -/
def PreviewBandAt (meta : TileMeta) (panX panY : Rat) (row col : Int) : Prop :=
  ¬VisibleAt meta panX panY row col ∧
    isTileInZone row col panX panY meta.tileWidth meta.tileHeight LOWRES_MARGIN = true ∧
    meta.hasPreview = true

/-- A tile index is in the Evict class when its rectangle does not overlap the viewport
expanded by `CLEANUP_MARGIN` (lines 207-208): a resident entry there is removed. -/
def EvictAt (meta : TileMeta) (panX panY : Rat) (row col : Int) : Prop :=
  isTileInZone row col panX panY meta.tileWidth meta.tileHeight CLEANUP_MARGIN = false

/-- A tile index is in the Keep class when it is inside the cleanup zone but neither
Visible nor in the Preview band: it is not fetched, and a resident entry is not evicted. -/
def KeepAt (meta : TileMeta) (panX panY : Rat) (row col : Int) : Prop :=
  ¬VisibleAt meta panX panY row col ∧ ¬PreviewBandAt meta panX panY row col ∧
    isTileInZone row col panX panY meta.tileWidth meta.tileHeight CLEANUP_MARGIN = true

/-- A well-formed cache binds every key to an entry carrying the coordinates of the key — true
of every map the component builds, since installs derive the key from the tile
(lines 185-186). -/
def MapWF (m : TilesMap) : Prop :=
  ∀ p ∈ m, p.1.row = p.2.row ∧ p.1.col = p.2.col

/-- The read the renderer takes of the cache for one tier (lines 332-337):
`Array.from(map.values()).filter(t => t.type === ty)`. -/
def tilesOfType (ty : TileType) (m : TilesMap) : List Tile :=
  (m.map fun p => p.2).filter fun t => decide (t.type = ty)

/-- What the component returns from its render function: the loading placeholder
(lines 323-329) or the two tier lists painted preview-below / full-above
(lines 339-403). -/
inductive RenderOut where
  | loadingPlaceholder
  | tiles (lowResTiles highResTiles : List Tile)
deriving DecidableEq, Repr

/-- Component state relevant to rendering. -/
structure ViewerState where
  tileMeta : Option TileMeta
  panX : Rat
  panY : Rat
  isInitialized : Bool
  load : LoadState
deriving DecidableEq, Repr

/-- The render function (lines 323-403): a loading placeholder until the metadata has
arrived and the first cycle has completed, then the cached tiles of both tiers. -/
def render (vs : ViewerState) : RenderOut :=
  match vs.tileMeta with
  | none => .loadingPlaceholder
  | some _ =>
    if vs.isInitialized = false then .loadingPlaceholder
    else .tiles (tilesOfType .low vs.load.tiles) (tilesOfType .high vs.load.tiles)

/-- `initialPanX` (lines 225-227): pan that puts the center of tile
`(centerRow, centerCol)` at the viewport center. -/
def initialPanX (meta : TileMeta) : Rat :=
  (meta.centerCol : Rat) * meta.tileWidth + meta.tileWidth / 2 - viewportCenterX

/-- `initialPanY` (lines 226-228). -/
def initialPanY (meta : TileMeta) : Rat :=
  (meta.centerRow : Rat) * meta.tileHeight + meta.tileHeight / 2 - viewportCenterY

/-- The component state on mount (lines 37-50). -/
def initialViewerState : ViewerState :=
  { tileMeta := none, panX := 0, panY := 0, isInitialized := false,
    load := { loading := [], tiles := [], signals := 0, warned := [] } }

/-- The `fetchTileMeta` effect (lines 218-239): store the metadata, center the pan on
`(centerRow, centerCol)`, run one full `updateTiles` cycle to completion (`await`,
line 234), and only then set `isInitialized`. -/
def fetchTileMeta (ok : TKey → Bool) (meta : TileMeta) (vs : ViewerState) : ViewerState :=
  let px := initialPanX meta
  let py := initialPanY meta
  { vs with
    tileMeta := some meta
    panX := px
    panY := py
    load := updateTiles ok meta px py vs.load
    isInitialized := true }

/-- A small concrete 4x4 tileset of 1024-pixel square tiles, used to instantiate the
theorems on concrete inputs. -/
def metaW : TileMeta :=
  { minRow := 0, maxRow := 3, minCol := 0, maxCol := 3, tileWidth := 1024, tileHeight := 1024,
    centerRow := 0, centerCol := 0, hasPreview := true }

/-- The empty load state (fresh component). -/
def emptyLoad : LoadState := { loading := [], tiles := [], signals := 0, warned := [] }

/-- Oracle under which every request succeeds. -/
def okAll : TKey → Bool := fun _ => true

/-- Oracle under which every request fails. -/
def okNone : TKey → Bool := fun _ => false

/-- Thirteen requests along one row: they split into one batch of twelve and one of one. -/
def reqsW : List TileReq :=
  (intRange 0 12).map fun c => { row := 0, col := c, distance := 0 }

/-- A concrete resident full-tier entry for tile (0,0). -/
def tileW00 : Tile :=
  { row := 0, col := 0, url := endpoint .high 0 0, type := .high, distance := 0 }

theorem isTileInZone_iff {row col : Int} {panX panY tw th m : Rat} :
    isTileInZone row col panX panY tw th m = true ↔
      panX - m < ((col : Rat) + 1) * tw ∧ (col : Rat) * tw < panX + viewportWidth + m ∧
        panY - m < ((row : Rat) + 1) * th ∧ (row : Rat) * th < panY + viewportHeight + m := by
  simp [isTileInZone, and_assoc]

theorem isTileInZone_mono {row col : Int} {panX panY tw th m₁ m₂ : Rat} (hm : m₁ ≤ m₂)
    (h : isTileInZone row col panX panY tw th m₁ = true) :
    isTileInZone row col panX panY tw th m₂ = true := by
  rw [isTileInZone_iff] at h ⊢
  obtain ⟨h1, h2, h3, h4⟩ := h
  refine ⟨by linarith, by linarith, by linarith, by linarith⟩

theorem mem_intRangeGo {n : Nat} : ∀ {a x : Int}, x ∈ intRangeGo a n ↔ a ≤ x ∧ x < a + (n : Int) := by
  induction n with
  | zero =>
    intro a x
    simp only [intRangeGo, List.not_mem_nil, false_iff]
    omega
  | succ n ih =>
    intro a x
    simp only [intRangeGo, List.mem_cons, ih]
    omega

theorem mem_intRange {a b x : Int} : x ∈ intRange a b ↔ a ≤ x ∧ x ≤ b := by
  rw [intRange, mem_intRangeGo]
  omega

theorem mem_scanIndices {meta : TileMeta} {panX panY : Rat} {row col : Int} :
    (row, col) ∈ scanIndices meta panX panY ↔
      centerRowOf meta panY - scanTilesY meta ≤ row ∧
        row ≤ centerRowOf meta panY + scanTilesY meta ∧
        centerColOf meta panX - scanTilesX meta ≤ col ∧
        col ≤ centerColOf meta panX + scanTilesX meta := by
  simp only [scanIndices, List.mem_flatMap, List.mem_map, mem_intRange, Prod.mk.injEq]
  constructor
  · rintro ⟨r, ⟨hr1, hr2⟩, c, ⟨hc1, hc2⟩, rfl, rfl⟩
    exact ⟨hr1, hr2, hc1, hc2⟩
  · rintro ⟨h1, h2, h3, h4⟩
    exact ⟨row, ⟨h1, h2⟩, col, ⟨h3, h4⟩, rfl, rfl⟩

theorem mem_highResTilesOf {meta : TileMeta} {panX panY : Rat} {t : TileReq} :
    t ∈ highResTilesOf meta panX panY ↔
      (t.row, t.col) ∈ scanIndices meta panX panY ∧
        inBoundsB meta t.row t.col = true ∧
        isTileInZone t.row t.col panX panY meta.tileWidth meta.tileHeight HIGHRES_MARGIN =
          true ∧
        t.distance = calculateTileDistanceSq t.row t.col (panX + viewportCenterX)
          (panY + viewportCenterY) meta.tileWidth meta.tileHeight := by
  simp only [highResTilesOf, List.mem_map, List.mem_filter, Bool.and_eq_true]
  constructor
  · rintro ⟨rc, ⟨hmem, hb, hz⟩, rfl⟩
    exact ⟨hmem, hb, hz, rfl⟩
  · rintro ⟨hmem, hb, hz, hd⟩
    refine ⟨(t.row, t.col), ⟨hmem, hb, hz⟩, ?_⟩
    obtain ⟨r, c, d⟩ := t
    simpa [tileReqOf] using hd.symm

theorem mem_lowResTilesOf {meta : TileMeta} {panX panY : Rat} {t : TileReq} :
    t ∈ lowResTilesOf meta panX panY ↔
      (t.row, t.col) ∈ scanIndices meta panX panY ∧
        inBoundsB meta t.row t.col = true ∧
        isTileInZone t.row t.col panX panY meta.tileWidth meta.tileHeight HIGHRES_MARGIN =
          false ∧
        isTileInZone t.row t.col panX panY meta.tileWidth meta.tileHeight LOWRES_MARGIN =
          true ∧
        meta.hasPreview = true ∧
        t.distance = calculateTileDistanceSq t.row t.col (panX + viewportCenterX)
          (panY + viewportCenterY) meta.tileWidth meta.tileHeight := by
  simp only [lowResTilesOf, List.mem_map, List.mem_filter, Bool.and_eq_true,
    Bool.not_eq_true']
  constructor
  · rintro ⟨rc, ⟨hmem, ⟨hb, hv⟩, hz, hp⟩, rfl⟩
    exact ⟨hmem, hb, hv, hz, hp, rfl⟩
  · rintro ⟨hmem, hb, hv, hz, hp, hd⟩
    refine ⟨(t.row, t.col), ⟨hmem, ⟨hb, hv⟩, hz, hp⟩, ?_⟩
    obtain ⟨r, c, d⟩ := t
    simpa [tileReqOf] using hd.symm

theorem mem_insertByDist {t v : TileReq} : ∀ {l : List TileReq},
    v ∈ insertByDist t l ↔ v = t ∨ v ∈ l := by
  intro l
  induction l with
  | nil => simp [insertByDist]
  | cons u us ih =>
    by_cases h : t.distance < u.distance
    · simp [insertByDist, h, List.mem_cons]
    · simp only [insertByDist, if_neg h, List.mem_cons, ih]
      tauto

theorem sorted_insertByDist {t : TileReq} : ∀ {l : List TileReq},
    List.Sorted (fun a b : TileReq => a.distance ≤ b.distance) l →
      List.Sorted (fun a b : TileReq => a.distance ≤ b.distance) (insertByDist t l) := by
  intro l
  induction l with
  | nil => intro _; simp [insertByDist]
  | cons u us ih =>
    intro h
    rw [List.sorted_cons] at h
    obtain ⟨hu, hus⟩ := h
    by_cases hd : t.distance < u.distance
    · rw [insertByDist, if_pos hd, List.sorted_cons]
      refine ⟨?_, ?_⟩
      · intro v hv
        rcases List.mem_cons.mp hv with rfl | hv
        · exact le_of_lt hd
        · exact le_trans (le_of_lt hd) (hu v hv)
      · rw [List.sorted_cons]
        exact ⟨hu, hus⟩
    · rw [insertByDist, if_neg hd, List.sorted_cons]
      refine ⟨?_, ih hus⟩
      intro v hv
      rcases mem_insertByDist.mp hv with rfl | hv
      · exact le_of_not_lt hd
      · exact hu v hv

theorem perm_insertByDist {t : TileReq} : ∀ {l : List TileReq},
    (insertByDist t l).Perm (t :: l) := by
  intro l
  induction l with
  | nil => simp [insertByDist]
  | cons u us ih =>
    by_cases hd : t.distance < u.distance
    · rw [insertByDist, if_pos hd]
    · rw [insertByDist, if_neg hd]
      exact (ih.cons u).trans (List.Perm.swap t u us)

theorem sorted_sortByDist : ∀ (l : List TileReq),
    List.Sorted (fun a b : TileReq => a.distance ≤ b.distance) (sortByDist l) := by
  intro l
  induction l with
  | nil => simp [sortByDist]
  | cons u us ih => exact sorted_insertByDist ih

theorem perm_sortByDist : ∀ (l : List TileReq), (sortByDist l).Perm l := by
  intro l
  induction l with
  | nil => exact List.Perm.refl _
  | cons u us ih => exact perm_insertByDist.trans (ih.cons u)

theorem mem_sortByDist {t : TileReq} {l : List TileReq} : t ∈ sortByDist l ↔ t ∈ l :=
  (perm_sortByDist l).mem_iff

theorem mapHas_iff {m : TilesMap} {k : TKey} :
    mapHas m k = true ↔ ∃ t : Tile, (k, t) ∈ m := by
  simp only [mapHas, List.any_eq_true, decide_eq_true_eq]
  constructor
  · rintro ⟨p, hp, rfl⟩
    exact ⟨p.2, hp⟩
  · rintro ⟨t, ht⟩
    exact ⟨(k, t), ht, rfl⟩

theorem mapHas_mapSet {m : TilesMap} {k k' : TKey} {t : Tile} :
    mapHas (mapSet m k t) k' = true ↔ k' = k ∨ mapHas m k' = true := by
  rw [mapSet]
  by_cases h : mapHas m k = true
  · rw [if_pos h]
    simp only [mapHas, List.any_eq_true, decide_eq_true_eq, List.mem_map] at h ⊢
    constructor
    · rintro ⟨p, ⟨q, hq, rfl⟩, hpk⟩
      by_cases hqk : q.1 = k
      · rw [if_pos hqk] at hpk
        exact Or.inl hpk.symm
      · rw [if_neg hqk] at hpk
        exact Or.inr ⟨q, hq, hpk⟩
    · rintro (rfl | ⟨p, hp, rfl⟩)
      · obtain ⟨q, hq, hqk⟩ := h
        refine ⟨(k', t), ⟨q, hq, ?_⟩, rfl⟩
        rw [if_pos hqk]
      · by_cases hpk : p.1 = k
        · refine ⟨(k, t), ⟨p, hp, ?_⟩, hpk.symm⟩
          rw [if_pos hpk]
        · refine ⟨p, ⟨p, hp, ?_⟩, rfl⟩
          rw [if_neg hpk]
  · rw [if_neg h]
    simp only [mapHas, List.any_eq_true, decide_eq_true_eq, List.mem_append,
      List.mem_singleton] at h ⊢
    constructor
    · rintro ⟨p, hp | rfl, hpk⟩
      · exact Or.inr ⟨p, hp, hpk⟩
      · exact Or.inl hpk.symm
    · rintro (rfl | ⟨p, hp, rfl⟩)
      · exact ⟨(k', t), Or.inr rfl, rfl⟩
      · exact ⟨p, Or.inl hp, rfl⟩

theorem mem_mapSet_self {m : TilesMap} {k : TKey} {t : Tile} : (k, t) ∈ mapSet m k t := by
  rw [mapSet]
  by_cases h : mapHas m k = true
  · rw [if_pos h]
    obtain ⟨u, hu⟩ := mapHas_iff.mp h
    exact List.mem_map.mpr ⟨(k, u), hu, by simp⟩
  · rw [if_neg h]
    exact List.mem_append.mpr (Or.inr (List.mem_singleton.mpr rfl))

theorem mapHas_mapDelete_imp {m : TilesMap} {k k' : TKey}
    (h : mapHas (mapDelete m k) k' = true) : mapHas m k' = true := by
  rw [mapHas_iff] at h ⊢
  obtain ⟨t, ht⟩ := h
  exact ⟨t, (List.mem_filter.mp ht).1⟩

theorem mapHas_foldl_mapDelete_imp {ks : List TKey} : ∀ {m : TilesMap} {k' : TKey},
    mapHas (ks.foldl (fun acc k => mapDelete acc k) m) k' = true → mapHas m k' = true := by
  induction ks with
  | nil => intro m k' h; exact h
  | cons k ks ih =>
    intro m k' h
    exact mapHas_mapDelete_imp (ih h)

theorem mapHas_installResults {rs : List (Option Tile)} : ∀ {m : TilesMap} {k : TKey},
    mapHas (installResults m rs) k = true ↔
      mapHas m k = true ∨ ∃ t : Tile, some t ∈ rs ∧ k = keyOf t.type t.row t.col := by
  induction rs with
  | nil => simp [installResults]
  | cons r rs ih =>
    intro m k
    match r with
    | none =>
      rw [show installResults m (none :: rs) = installResults m rs from rfl, ih]
      simp
    | some t =>
      rw [show installResults m (some t :: rs) =
          installResults (mapSet m (keyOf t.type t.row t.col) t) rs from rfl, ih,
        mapHas_mapSet]
      constructor
      · rintro ((rfl | hm) | ⟨u, hu, rfl⟩)
        · exact Or.inr ⟨t, List.mem_cons_self _ _, rfl⟩
        · exact Or.inl hm
        · exact Or.inr ⟨u, List.mem_cons_of_mem _ hu, rfl⟩
      · rintro (hm | ⟨u, hu, rfl⟩)
        · exact Or.inl (Or.inr hm)
        · rcases List.mem_cons.mp hu with h | h
          · rw [Option.some.injEq] at h
            subst h
            exact Or.inl (Or.inl rfl)
          · exact Or.inr ⟨u, h, rfl⟩

theorem issueBatch_fst_map {tiles : TilesMap} {ty : TileType} :
    ∀ (bs : List TileReq) (loading : List TKey),
      ((issueBatch tiles ty loading bs).2.map fun p => p.1) = bs := by
  intro bs
  induction bs with
  | nil => intro loading; rfl
  | cons t ts ih =>
    intro loading
    simp only [issueBatch, List.map_cons, ih]

theorem issueBatch_somes {tiles : TilesMap} {ty : TileType} :
    ∀ (bs : List TileReq) (loading : List TKey),
      (issueBatch tiles ty loading bs).1 =
          ((issueBatch tiles ty loading bs).2.filterMap fun p => p.2).reverse ++ loading ∧
        ((issueBatch tiles ty loading bs).2.filterMap fun p => p.2).Nodup ∧
        ∀ k ∈ (issueBatch tiles ty loading bs).2.filterMap fun p => p.2, k ∉ loading := by
  intro bs
  induction bs with
  | nil =>
    intro loading
    refine ⟨rfl, ?_, ?_⟩
    · simp [issueBatch]
    · simp [issueBatch]
  | cons t ts ih =>
    intro loading
    by_cases hg : keyOf ty t.row t.col ∈ loading ∨ mapHas tiles (keyOf ty t.row t.col) = true
    · obtain ⟨h1, h2, h3⟩ := ih loading
      simp only [issueBatch, loadTileIssue, if_pos hg, List.filterMap_cons_none]
      exact ⟨h1, h2, h3⟩
    · obtain ⟨h1, h2, h3⟩ := ih (keyOf ty t.row t.col :: loading)
      have hnotin : keyOf ty t.row t.col ∉
          (issueBatch tiles ty (keyOf ty t.row t.col :: loading) ts).2.filterMap
            fun p => p.2 := by
        intro hin
        exact h3 _ hin (List.mem_cons_self _ _)
      have hfm : List.filterMap (fun p => p.2)
            ((t, some (keyOf ty t.row t.col)) ::
              (issueBatch tiles ty (keyOf ty t.row t.col :: loading) ts).2) =
          keyOf ty t.row t.col ::
            List.filterMap (fun p => p.2)
              (issueBatch tiles ty (keyOf ty t.row t.col :: loading) ts).2 := by
        simp [List.filterMap_cons]
      simp only [issueBatch, loadTileIssue, if_neg hg, hfm]
      refine ⟨?_, ?_, ?_⟩
      · rw [h1, List.reverse_cons, List.append_assoc, List.singleton_append]
      · exact List.nodup_cons.mpr ⟨hnotin, h2⟩
      · intro k hk
        rcases List.mem_cons.mp hk with rfl | hk'
        · intro hkl
          exact hg (Or.inl hkl)
        · intro hkl
          exact h3 k hk' (List.mem_cons_of_mem _ hkl)

theorem issueBatch_some_key {tiles : TilesMap} {ty : TileType} :
    ∀ (bs : List TileReq) (loading : List TKey) (p : TileReq × Option TKey),
      p ∈ (issueBatch tiles ty loading bs).2 → ∀ k, p.2 = some k →
        k = keyOf ty p.1.row p.1.col ∧ mapHas tiles k = false := by
  intro bs
  induction bs with
  | nil => intro loading p hp; exact absurd hp (List.not_mem_nil _)
  | cons t ts ih =>
    intro loading p hp k hk
    by_cases hg : keyOf ty t.row t.col ∈ loading ∨ mapHas tiles (keyOf ty t.row t.col) = true
    · simp only [issueBatch, loadTileIssue, if_pos hg] at hp
      rcases List.mem_cons.mp hp with rfl | hp'
      · exact absurd hk (by simp)
      · exact ih _ p hp' k hk
    · simp only [issueBatch, loadTileIssue, if_neg hg] at hp
      rcases List.mem_cons.mp hp with rfl | hp'
      · simp only [Option.some.injEq] at hk
        subst hk
        refine ⟨rfl, ?_⟩
        cases h : mapHas tiles (keyOf ty t.row t.col) with
        | false => rfl
        | true => exact absurd (Or.inr h) hg
      · exact ih _ p hp' k hk

theorem issueBatch_mem_issued {tiles : TilesMap} {ty : TileType} {req : TileReq} :
    ∀ (bs : List TileReq) (loading : List TKey),
      (bs.map fun t => keyOf ty t.row t.col).Nodup →
      req ∈ bs →
      keyOf ty req.row req.col ∉ loading →
      mapHas tiles (keyOf ty req.row req.col) = false →
      (req, some (keyOf ty req.row req.col)) ∈ (issueBatch tiles ty loading bs).2 := by
  intro bs
  induction bs with
  | nil => intro loading _ hmem; exact absurd hmem (List.not_mem_nil _)
  | cons t ts ih =>
    intro loading hnd hmem hl hm
    rcases List.mem_cons.mp hmem with rfl | hmem'
    · have hg : ¬(keyOf ty req.row req.col ∈ loading ∨
          mapHas tiles (keyOf ty req.row req.col) = true) := by
        rintro (h | h)
        · exact hl h
        · rw [hm] at h
          exact Bool.false_ne_true h
      simp only [issueBatch, loadTileIssue, if_neg hg]
      exact List.mem_cons_self _ _
    · have hkt : keyOf ty t.row t.col ≠ keyOf ty req.row req.col := by
        intro h
        have h1 : keyOf ty t.row t.col ∉ ts.map fun u => keyOf ty u.row u.col :=
          (List.nodup_cons.mp (by simpa using hnd)).1
        exact h1 (h ▸ List.mem_map.mpr ⟨req, hmem', rfl⟩)
      have hnd' : (ts.map fun u => keyOf ty u.row u.col).Nodup :=
        (List.nodup_cons.mp (by simpa using hnd)).2
      by_cases hg : keyOf ty t.row t.col ∈ loading ∨ mapHas tiles (keyOf ty t.row t.col) = true
      · simp only [issueBatch, loadTileIssue, if_pos hg]
        exact List.mem_cons_of_mem _ (ih loading hnd' hmem' hl hm)
      · simp only [issueBatch, loadTileIssue, if_neg hg]
        refine List.mem_cons_of_mem _ (ih _ hnd' hmem' ?_ hm)
        intro hin
        rcases List.mem_cons.mp hin with h | h
        · exact hkt h.symm
        · exact hl h

theorem resolveBatch_tiles {ok : TKey → Bool} {ty : TileType} :
    ∀ (ps : List (TileReq × Option TKey)) (st : LoadState),
      (resolveBatch ok ty st ps).1.tiles = st.tiles := by
  intro ps
  induction ps with
  | nil => intro st; rfl
  | cons p ps ih =>
    intro st
    match hp : p.2 with
    | none => simp only [resolveBatch, loadTileResolve, hp, ih]
    | some k =>
      by_cases hk : ok k = true
      · simp only [resolveBatch, loadTileResolve, hp, if_pos hk, ih]
      · simp only [resolveBatch, loadTileResolve, hp, if_neg hk, ih]

theorem resolveBatch_signals {ok : TKey → Bool} {ty : TileType} :
    ∀ (ps : List (TileReq × Option TKey)) (st : LoadState),
      (resolveBatch ok ty st ps).1.signals = st.signals := by
  intro ps
  induction ps with
  | nil => intro st; rfl
  | cons p ps ih =>
    intro st
    match hp : p.2 with
    | none => simp only [resolveBatch, loadTileResolve, hp, ih]
    | some k =>
      by_cases hk : ok k = true
      · simp only [resolveBatch, loadTileResolve, hp, if_pos hk, ih]
      · simp only [resolveBatch, loadTileResolve, hp, if_neg hk, ih]

theorem resolveBatch_loading {ok : TKey → Bool} {ty : TileType} :
    ∀ (ps : List (TileReq × Option TKey)) (st : LoadState),
      (resolveBatch ok ty st ps).1.loading =
        List.foldl List.erase st.loading (ps.filterMap fun p => p.2) := by
  intro ps
  induction ps with
  | nil => intro st; rfl
  | cons p ps ih =>
    intro st
    match hp : p.2 with
    | none =>
      simp only [resolveBatch, loadTileResolve, hp, ih, List.filterMap_cons_none]
    | some k =>
      have hfm : List.filterMap (fun q => q.2) (p :: ps) =
          k :: List.filterMap (fun q => q.2) ps := by
        simp [List.filterMap_cons, hp]
      by_cases hk : ok k = true
      · simp only [resolveBatch, loadTileResolve, hp, if_pos hk, ih]
        rw [hfm, List.foldl_cons]
      · simp only [resolveBatch, loadTileResolve, hp, if_neg hk, ih]
        rw [hfm, List.foldl_cons]

theorem resolveBatch_warned_mono {ok : TKey → Bool} {ty : TileType} {k : TKey} :
    ∀ (ps : List (TileReq × Option TKey)) (st : LoadState),
      k ∈ st.warned → k ∈ (resolveBatch ok ty st ps).1.warned := by
  intro ps
  induction ps with
  | nil => intro st h; exact h
  | cons p ps ih =>
    intro st h
    match hp : p.2 with
    | none => simp only [resolveBatch, loadTileResolve, hp]; exact ih _ h
    | some k' =>
      by_cases hk : ok k' = true
      · simp only [resolveBatch, loadTileResolve, hp, if_pos hk]
        exact ih _ h
      · simp only [resolveBatch, loadTileResolve, hp, if_neg hk]
        exact ih _ (List.mem_cons_of_mem _ h)

theorem resolveBatch_warned_gain {ok : TKey → Bool} {ty : TileType} {req : TileReq}
    {k : TKey} :
    ∀ (ps : List (TileReq × Option TKey)) (st : LoadState),
      (req, some k) ∈ ps → ok k = false →
        k ∈ (resolveBatch ok ty st ps).1.warned := by
  intro ps
  induction ps with
  | nil => intro st h; exact absurd h (List.not_mem_nil _)
  | cons p ps ih =>
    intro st hmem hok
    rcases List.mem_cons.mp hmem with rfl | hmem'
    · have hk : ¬ ok k = true := by rw [hok]; exact Bool.false_ne_true
      simp only [resolveBatch, loadTileResolve, if_neg hk]
      exact resolveBatch_warned_mono ps _ (List.mem_cons_self _ _)
    · match hp : p.2 with
      | none =>
        simp only [resolveBatch, loadTileResolve, hp]
        exact ih _ hmem' hok
      | some k' =>
        by_cases hk : ok k' = true
        · simp only [resolveBatch, loadTileResolve, hp, if_pos hk]
          exact ih _ hmem' hok
        · simp only [resolveBatch, loadTileResolve, hp, if_neg hk]
          exact ih _ hmem' hok

theorem resolveBatch_some_mem {ok : TKey → Bool} {ty : TileType} :
    ∀ (ps : List (TileReq × Option TKey)) (st : LoadState) (tile : Tile),
      some tile ∈ (resolveBatch ok ty st ps).2 →
        ∃ p ∈ ps, ∃ k, p.2 = some k ∧ ok k = true ∧
          tile = { row := p.1.row, col := p.1.col, url := endpoint ty p.1.row p.1.col,
                   type := ty, distance := p.1.distance } := by
  intro ps
  induction ps with
  | nil => intro st tile h; exact absurd h (List.not_mem_nil _)
  | cons p ps ih =>
    intro st tile h
    match hp : p.2 with
    | none =>
      simp only [resolveBatch, loadTileResolve, hp] at h
      rcases List.mem_cons.mp h with h' | h'
      · exact absurd h'.symm (by simp)
      · obtain ⟨q, hq, k, hk, hok, rfl⟩ := ih _ _ h'
        exact ⟨q, List.mem_cons_of_mem _ hq, k, hk, hok, rfl⟩
    | some k =>
      by_cases hk : ok k = true
      · simp only [resolveBatch, loadTileResolve, hp, if_pos hk] at h
        rcases List.mem_cons.mp h with h' | h'
        · rw [Option.some.injEq] at h'
          exact ⟨p, List.mem_cons_self _ _, k, hp, hk, h'⟩
        · obtain ⟨q, hq, k', hk', hok, rfl⟩ := ih _ _ h'
          exact ⟨q, List.mem_cons_of_mem _ hq, k', hk', hok, rfl⟩
      · simp only [resolveBatch, loadTileResolve, hp, if_neg hk] at h
        rcases List.mem_cons.mp h with h' | h'
        · exact absurd h'.symm (by simp)
        · obtain ⟨q, hq, k', hk', hok, rfl⟩ := ih _ _ h'
          exact ⟨q, List.mem_cons_of_mem _ hq, k', hk', hok, rfl⟩

theorem foldl_erase_reverse :
    ∀ (ks acc : List TKey), ks.Nodup →
      List.foldl List.erase (ks.reverse ++ acc) ks = acc := by
  intro ks
  induction ks with
  | nil => intro acc _; rfl
  | cons k ks ih =>
    intro acc hnd
    rw [List.reverse_cons, List.foldl_cons, List.append_assoc, List.singleton_append,
      List.erase_append_right _ (by simpa using (List.nodup_cons.mp hnd).1),
      List.erase_cons_head]
    exact ih acc (List.nodup_cons.mp hnd).2

theorem runBatch_loading {ok : TKey → Bool} {ty : TileType} {st : LoadState}
    {batch : List TileReq} : (runBatch ok ty st batch).1.loading = st.loading := by
  obtain ⟨h1, h2, _⟩ := @issueBatch_somes st.tiles ty batch st.loading
  show (resolveBatch ok ty _ _).1.loading = st.loading
  rw [resolveBatch_loading]
  show List.foldl List.erase (issueBatch st.tiles ty st.loading batch).1 _ = st.loading
  rw [h1]
  exact foldl_erase_reverse _ _ h2

theorem runBatch_signals {ok : TKey → Bool} {ty : TileType} {st : LoadState}
    {batch : List TileReq} : (runBatch ok ty st batch).1.signals = st.signals + 1 := by
  show (resolveBatch ok ty _ _).1.signals + 1 = st.signals + 1
  rw [resolveBatch_signals]

theorem runBatch_tiles_eq {ok : TKey → Bool} {ty : TileType} {st : LoadState}
    {batch : List TileReq} :
    (runBatch ok ty st batch).1.tiles =
      installResults st.tiles (runBatch ok ty st batch).2 := by
  show installResults (resolveBatch ok ty _ _).1.tiles _ = _
  rw [resolveBatch_tiles]
  rfl

theorem runBatch_warned_mono {ok : TKey → Bool} {ty : TileType} {st : LoadState}
    {batch : List TileReq} {k : TKey} (h : k ∈ st.warned) :
    k ∈ (runBatch ok ty st batch).1.warned := by
  show k ∈ (resolveBatch ok ty _ _).1.warned
  exact resolveBatch_warned_mono _ _ h

theorem runBatch_warned_gain {ok : TKey → Bool} {ty : TileType} {st : LoadState}
    {batch : List TileReq} {req : TileReq}
    (hnd : (batch.map fun t => keyOf ty t.row t.col).Nodup)
    (hmem : req ∈ batch)
    (hl : keyOf ty req.row req.col ∉ st.loading)
    (hm : mapHas st.tiles (keyOf ty req.row req.col) = false)
    (hok : ok (keyOf ty req.row req.col) = false) :
    keyOf ty req.row req.col ∈ (runBatch ok ty st batch).1.warned := by
  show keyOf ty req.row req.col ∈ (resolveBatch ok ty _ _).1.warned
  exact resolveBatch_warned_gain _ _ (issueBatch_mem_issued batch st.loading hnd hmem hl hm)
    hok

theorem runBatch_some_spec {ok : TKey → Bool} {ty : TileType} {st : LoadState}
    {batch : List TileReq} {tile : Tile}
    (h : some tile ∈ (runBatch ok ty st batch).2) :
    tile.type = ty ∧ ok (keyOf ty tile.row tile.col) = true ∧
      ∃ r ∈ batch, tile.row = r.row ∧ tile.col = r.col := by
  have h' : some tile ∈ (resolveBatch ok ty
      { st with loading := (issueBatch st.tiles ty st.loading batch).1 }
      (issueBatch st.tiles ty st.loading batch).2).2 := h
  obtain ⟨p, hp, k, hk, hok, rfl⟩ := resolveBatch_some_mem _ _ _ h'
  obtain ⟨hkey, _⟩ := issueBatch_some_key batch st.loading p hp k hk
  refine ⟨rfl, ?_, p.1, ?_, rfl, rfl⟩
  · show ok (keyOf ty p.1.row p.1.col) = true
    rw [← hkey]
    exact hok
  · rw [← @issueBatch_fst_map st.tiles ty batch st.loading]
    exact List.mem_map.mpr ⟨p, hp, rfl⟩

theorem runBatchesList_signals {ok : TKey → Bool} {ty : TileType} :
    ∀ (bs : List (List TileReq)) (st : LoadState),
      (runBatchesList ok ty st bs).signals = st.signals + bs.length := by
  intro bs
  induction bs with
  | nil => intro st; rfl
  | cons b bs ih =>
    intro st
    rw [runBatchesList, ih, runBatch_signals, List.length_cons]
    omega

theorem runBatchesList_loading {ok : TKey → Bool} {ty : TileType} :
    ∀ (bs : List (List TileReq)) (st : LoadState),
      (runBatchesList ok ty st bs).loading = st.loading := by
  intro bs
  induction bs with
  | nil => intro st; rfl
  | cons b bs ih =>
    intro st
    rw [runBatchesList, ih, runBatch_loading]

theorem runBatchesList_tiles_mono {ok : TKey → Bool} {ty : TileType} {k : TKey} :
    ∀ (bs : List (List TileReq)) (st : LoadState),
      mapHas st.tiles k = true → mapHas (runBatchesList ok ty st bs).tiles k = true := by
  intro bs
  induction bs with
  | nil => intro st h; exact h
  | cons b bs ih =>
    intro st h
    rw [runBatchesList]
    refine ih _ ?_
    rw [runBatch_tiles_eq, mapHas_installResults]
    exact Or.inl h

theorem runBatchesList_has_imp {ok : TKey → Bool} {ty : TileType} {k : TKey} :
    ∀ (bs : List (List TileReq)) (st : LoadState),
      mapHas (runBatchesList ok ty st bs).tiles k = true →
        mapHas st.tiles k = true ∨ (k.type = ty ∧ ok k = true) := by
  intro bs
  induction bs with
  | nil => intro st h; exact Or.inl h
  | cons b bs ih =>
    intro st h
    rw [runBatchesList] at h
    rcases ih _ h with h' | h'
    · rw [runBatch_tiles_eq, mapHas_installResults] at h'
      rcases h' with h' | ⟨t, ht, rfl⟩
      · exact Or.inl h'
      · obtain ⟨hty, hok, _⟩ := runBatch_some_spec ht
        rw [hty]
        exact Or.inr ⟨rfl, hok⟩
    · exact Or.inr h'

theorem runBatchesList_warned_mono {ok : TKey → Bool} {ty : TileType} {k : TKey} :
    ∀ (bs : List (List TileReq)) (st : LoadState),
      k ∈ st.warned → k ∈ (runBatchesList ok ty st bs).warned := by
  intro bs
  induction bs with
  | nil => intro st h; exact h
  | cons b bs ih =>
    intro st h
    exact ih _ (runBatch_warned_mono h)

theorem runBatchesList_warned_gain {ok : TKey → Bool} {ty : TileType} {req : TileReq} :
    ∀ (bs : List (List TileReq)) (st : LoadState),
      (∀ b ∈ bs, (b.map fun t => keyOf ty t.row t.col).Nodup) →
      req ∈ bs.flatten →
      keyOf ty req.row req.col ∉ st.loading →
      mapHas st.tiles (keyOf ty req.row req.col) = false →
      ok (keyOf ty req.row req.col) = false →
      keyOf ty req.row req.col ∈ (runBatchesList ok ty st bs).warned := by
  intro bs
  induction bs with
  | nil => intro st _ hmem; exact absurd hmem (List.not_mem_nil _)
  | cons b bs ih =>
    intro st hnd hmem hl hm hok
    rw [List.flatten_cons] at hmem
    rw [runBatchesList]
    rcases List.mem_append.mp hmem with hb | hbs
    · exact runBatchesList_warned_mono _ _
        (runBatch_warned_gain (hnd b (List.mem_cons_self _ _)) hb hl hm hok)
    · refine ih _ (fun c hc => hnd c (List.mem_cons_of_mem _ hc)) hbs ?_ ?_ hok
      · rw [runBatch_loading]
        exact hl
      · cases hhas : mapHas (runBatch ok ty st b).1.tiles (keyOf ty req.row req.col) with
        | false => rfl
        | true =>
          rw [runBatch_tiles_eq, mapHas_installResults] at hhas
          rcases hhas with h' | ⟨t, ht, hkey⟩
          · rw [hm] at h'
            exact absurd h' Bool.false_ne_true
          · obtain ⟨hty, hok', _⟩ := runBatch_some_spec ht
            rw [hty] at hkey
            rw [← hkey] at hok'
            rw [hok] at hok'
            exact absurd hok' Bool.false_ne_true

theorem runBatchesList_append {ok : TKey → Bool} {ty : TileType} :
    ∀ (xs ys : List (List TileReq)) (st : LoadState),
      runBatchesList ok ty st (xs ++ ys) =
        runBatchesList ok ty (runBatchesList ok ty st xs) ys := by
  intro xs
  induction xs with
  | nil => intro ys st; rfl
  | cons x xs ih =>
    intro ys st
    rw [List.cons_append, runBatchesList, runBatchesList, ih]

theorem chunksGo_flatten : ∀ (fuel : Nat) (l : List TileReq), l.length ≤ fuel →
    (chunksGo fuel l).flatten = l := by
  intro fuel
  induction fuel with
  | zero =>
    intro l h
    cases l with
    | nil => rfl
    | cons t ts => simp at h
  | succ n ih =>
    intro l h
    cases l with
    | nil => rfl
    | cons t ts =>
      rw [chunksGo, List.flatten_cons, ih _ ?_, List.take_append_drop]
      simp only [List.length_drop, List.length_cons, BATCH_SIZE] at h ⊢
      omega

theorem chunks_flatten (l : List TileReq) : (chunks l).flatten = l :=
  chunksGo_flatten l.length l le_rfl

theorem chunksGo_mem_length {b : List TileReq} : ∀ {fuel : Nat} {l : List TileReq},
    b ∈ chunksGo fuel l → 0 < b.length ∧ b.length ≤ BATCH_SIZE := by
  intro fuel
  induction fuel with
  | zero =>
    intro l h
    cases l with
    | nil => exact absurd h (List.not_mem_nil _)
    | cons t ts => exact absurd h (List.not_mem_nil _)
  | succ n ih =>
    intro l h
    cases l with
    | nil => exact absurd h (List.not_mem_nil _)
    | cons t ts =>
      rw [chunksGo] at h
      rcases List.mem_cons.mp h with rfl | h'
      · constructor
        · simp [BATCH_SIZE]
        · rw [List.length_take]
          exact min_le_left _ _
      · exact ih h'

theorem chunks_mem_length {b : List TileReq} {l : List TileReq}
    (h : b ∈ chunks l) : 0 < b.length ∧ b.length ≤ BATCH_SIZE :=
  chunksGo_mem_length h

theorem chunksGo_mem_sublist {b : List TileReq} : ∀ {fuel : Nat} {l : List TileReq},
    b ∈ chunksGo fuel l → b.Sublist l := by
  intro fuel
  induction fuel with
  | zero =>
    intro l h
    cases l with
    | nil => exact absurd h (List.not_mem_nil _)
    | cons t ts => exact absurd h (List.not_mem_nil _)
  | succ n ih =>
    intro l h
    cases l with
    | nil => exact absurd h (List.not_mem_nil _)
    | cons t ts =>
      rw [chunksGo] at h
      rcases List.mem_cons.mp h with rfl | h'
      · exact List.take_sublist _ _
      · exact (ih h').trans (List.drop_sublist _ _)

theorem chunks_mem_sublist {b : List TileReq} {l : List TileReq}
    (h : b ∈ chunks l) : b.Sublist l :=
  chunksGo_mem_sublist h

theorem stateAfterBatches_succ {ok : TKey → Bool} {ty : TileType} {st : LoadState}
    {l : List TileReq} {k : Nat} (hk : k < (chunks l).length) :
    stateAfterBatches ok ty st l (k + 1) =
      (runBatch ok ty (stateAfterBatches ok ty st l k) ((chunks l).get ⟨k, hk⟩)).1 := by
  unfold stateAfterBatches
  rw [List.take_succ, runBatchesList_append, List.getElem?_eq_getElem hk]
  rfl

theorem stateAfterBatches_full {ok : TKey → Bool} {ty : TileType} {st : LoadState}
    {l : List TileReq} :
    stateAfterBatches ok ty st l (chunks l).length = loadInBatches ok ty st l := by
  unfold stateAfterBatches loadInBatches
  rw [List.take_length]

theorem nodup_intRangeGo {n : Nat} : ∀ {a : Int}, (intRangeGo a n).Nodup := by
  induction n with
  | zero => intro a; exact List.nodup_nil
  | succ n ih =>
    intro a
    rw [intRangeGo, List.nodup_cons]
    refine ⟨?_, ih⟩
    rw [mem_intRangeGo]
    omega

theorem nodup_intRange {a b : Int} : (intRange a b).Nodup := nodup_intRangeGo

theorem nodup_scanIndices {meta : TileMeta} {panX panY : Rat} :
    (scanIndices meta panX panY).Nodup := by
  rw [scanIndices, List.nodup_flatMap]
  constructor
  · intro r _
    exact List.Nodup.map (fun c c' h => by simpa using h) nodup_intRange
  · refine List.Nodup.pairwise_of_forall_ne nodup_intRange ?_
    intro r _ r' _ hne
    intro x hx hx'
    rcases List.mem_map.mp hx with ⟨c, _, rfl⟩
    rcases List.mem_map.mp hx' with ⟨c', _, heq⟩
    exact hne (congrArg Prod.fst heq).symm

theorem nodup_keys_highResTilesOf {meta : TileMeta} {panX panY : Rat} :
    ((highResTilesOf meta panX panY).map fun t => keyOf .high t.row t.col).Nodup := by
  rw [highResTilesOf, List.map_map]
  refine List.Nodup.map ?_ (List.Nodup.filter _ nodup_scanIndices)
  intro rc rc' h
  simp only [Function.comp_apply, tileReqOf, keyOf, TKey.mk.injEq, true_and] at h
  exact Prod.ext h.1 h.2

theorem nodup_keys_highResToLoadOf {meta : TileMeta} {panX panY : Rat} {m : TilesMap} :
    ((highResToLoadOf meta panX panY m).map fun t => keyOf .high t.row t.col).Nodup := by
  rw [highResToLoadOf]
  refine List.Sublist.nodup (List.Sublist.map _ (List.filter_sublist _)) ?_
  exact (((perm_sortByDist (highResTilesOf meta panX panY)).map
    fun t => keyOf TileType.high t.row t.col).symm.nodup nodup_keys_highResTilesOf)

theorem scanRange1d {pan size tdim M : Rat} {i : Int}
    (ht : 0 < tdim) (hM : 0 ≤ M) (hsize : 0 ≤ size)
    (h1 : pan - M < ((i : Rat) + 1) * tdim)
    (h2 : (i : Rat) * tdim < pan + size + M) :
    ⌊(pan + size / 2) / tdim⌋ - (⌈(size + M * 2) / tdim⌉ + 2) ≤ i ∧
      i ≤ ⌊(pan + size / 2) / tdim⌋ + (⌈(size + M * 2) / tdim⌉ + 2) := by
  set c : Int := ⌊(pan + size / 2) / tdim⌋ with hcdef
  set s : Int := ⌈(size + M * 2) / tdim⌉ with hsdef
  have hfl : (c : Rat) ≤ (pan + size / 2) / tdim := Int.floor_le _
  have hc1 : (c : Rat) * tdim ≤ pan + size / 2 := by
    rw [← le_div_iff₀ ht]
    exact hfl
  have hfl2 : (pan + size / 2) / tdim < (c : Rat) + 1 := Int.lt_floor_add_one _
  have hc2 : pan + size / 2 < ((c : Rat) + 1) * tdim := by
    rw [← div_lt_iff₀ ht]
    exact hfl2
  have hcl : (size + M * 2) / tdim ≤ (s : Rat) := Int.le_ceil _
  have hs1 : size + M * 2 ≤ (s : Rat) * tdim := by
    rw [← div_le_iff₀ ht]
    exact hcl
  constructor
  · have key : ((c - (s + 2) : Int) : Rat) * tdim < (i : Rat) * tdim := by
      push_cast
      nlinarith [h1, hc1, hs1, ht, hM, hsize]
    have h' : ((c - (s + 2) : Int) : Rat) < (i : Rat) := lt_of_mul_lt_mul_right key ht.le
    have h'' : c - (s + 2) < i := by exact_mod_cast h'
    omega
  · have key : (i : Rat) * tdim < ((c + (s + 2) : Int) : Rat) * tdim := by
      push_cast
      nlinarith [h2, hc2, hs1, ht, hM, hsize]
    have h' : (i : Rat) < ((c + (s + 2) : Int) : Rat) := lt_of_mul_lt_mul_right key ht.le
    have h'' : i < c + (s + 2) := by exact_mod_cast h'
    omega

/-- C4: the scan window is complete — every tile index inside the grid bounds whose
rectangle strictly overlaps the viewport expanded by the cleanup margin `M_evict` is
visited by the center ± scan-count range of the classification loop. -/
theorem scan_window_completeness (meta : TileMeta) (panX panY : Rat) (row col : Int)
    (htw : 0 < meta.tileWidth) (hth : 0 < meta.tileHeight)
    (hb : inBoundsB meta row col = true)
    (hz : isTileInZone row col panX panY meta.tileWidth meta.tileHeight CLEANUP_MARGIN
      = true) :
    (row, col) ∈ scanIndices meta panX panY := by
  rw [isTileInZone_iff] at hz
  obtain ⟨hz1, hz2, hz3, hz4⟩ := hz
  have hM : (0 : Rat) ≤ CLEANUP_MARGIN := by norm_num [CLEANUP_MARGIN]
  have hrows := @scanRange1d panY viewportHeight meta.tileHeight CLEANUP_MARGIN row hth hM
    (by norm_num [viewportHeight]) hz3 hz4
  have hcols := @scanRange1d panX viewportWidth meta.tileWidth CLEANUP_MARGIN col htw hM
    (by norm_num [viewportWidth]) hz1 hz2
  rw [mem_scanIndices]
  simp only [centerRowOf, centerColOf, scanTilesY, scanTilesX, viewportCenterY,
    viewportCenterX]
  exact ⟨hrows.1, hrows.2, hcols.1, hcols.2⟩

/-- C5: both fetch lists produced by a refresh cycle are sorted ascending by distance to
the viewport center, so of any two tiles in a list the nearer one appears no later in
fetch order.  Distances are represented by their squares, which `sqrt` maps monotonically
to the distances the source compares. -/
theorem fetch_priority_ordering (meta : TileMeta) (panX panY : Rat) (m : TilesMap) :
    List.Sorted (fun a b : TileReq => a.distance ≤ b.distance)
        (highResToLoadOf meta panX panY m) ∧
      List.Sorted (fun a b : TileReq => a.distance ≤ b.distance)
        (lowResToLoadOf meta panX panY m) := by
  constructor
  · exact List.Pairwise.filter _ (sorted_sortByDist (highResTilesOf meta panX panY))
  · exact List.Pairwise.filter _ (sorted_sortByDist (lowResTilesOf meta panX panY))

/-- C3: a tile classified Visible or Preview-band by a cycle is never in the eviction set
that the same cycle computes from a well-formed cache, because the zero and preview
margins are both below the cleanup margin. -/
theorem eviction_safety (meta : TileMeta) (panX panY : Rat) (t : TileReq) (m : TilesMap)
    (hwf : MapWF m)
    (hc : t ∈ highResTilesOf meta panX panY ∨ t ∈ lowResTilesOf meta panX panY)
    (ty : TileType) :
    keyOf ty t.row t.col ∉ tilesToRemoveOf m meta panX panY := by
  have hzone : isTileInZone t.row t.col panX panY meta.tileWidth meta.tileHeight
      CLEANUP_MARGIN = true := by
    rcases hc with h | h
    · exact isTileInZone_mono (by norm_num [HIGHRES_MARGIN, CLEANUP_MARGIN])
        (mem_highResTilesOf.mp h).2.2.1
    · exact isTileInZone_mono (by norm_num [LOWRES_MARGIN, CLEANUP_MARGIN])
        (mem_lowResTilesOf.mp h).2.2.2.1
  intro hmem
  rw [tilesToRemoveOf] at hmem
  rcases List.mem_map.mp hmem with ⟨p, hp, hpk⟩
  rcases List.mem_filter.mp hp with ⟨hpm, hcond⟩
  obtain ⟨hr, hcl⟩ := hwf p hpm
  have hrow : p.2.row = t.row := by
    rw [← hr, hpk]
    rfl
  have hcol : p.2.col = t.col := by
    rw [← hcl, hpk]
    rfl
  rw [Bool.not_eq_true', hrow, hcol, hzone] at hcond
  exact absurd hcond (by decide)

/-- C2 (amended): within the scan window and grid bounds, the four classes
Visible / Preview-band / Keep / Evict are exhaustive and pairwise disjoint. -/
theorem zone_partition_four (meta : TileMeta) (panX panY : Rat) (row col : Int)
    (hwin : (row, col) ∈ scanIndices meta panX panY)
    (hb : inBoundsB meta row col = true) :
    (VisibleAt meta panX panY row col ∨ PreviewBandAt meta panX panY row col ∨
        KeepAt meta panX panY row col ∨ EvictAt meta panX panY row col) ∧
      ¬(VisibleAt meta panX panY row col ∧ PreviewBandAt meta panX panY row col) ∧
      ¬(VisibleAt meta panX panY row col ∧ KeepAt meta panX panY row col) ∧
      ¬(VisibleAt meta panX panY row col ∧ EvictAt meta panX panY row col) ∧
      ¬(PreviewBandAt meta panX panY row col ∧ KeepAt meta panX panY row col) ∧
      ¬(PreviewBandAt meta panX panY row col ∧ EvictAt meta panX panY row col) ∧
      ¬(KeepAt meta panX panY row col ∧ EvictAt meta panX panY row col) := by
  refine ⟨?_, ?_, ?_, ?_, ?_, ?_, ?_⟩
  · by_cases hv : VisibleAt meta panX panY row col
    · exact Or.inl hv
    · by_cases hp : PreviewBandAt meta panX panY row col
      · exact Or.inr (Or.inl hp)
      · cases hcl : isTileInZone row col panX panY meta.tileWidth meta.tileHeight
            CLEANUP_MARGIN with
        | true => exact Or.inr (Or.inr (Or.inl ⟨hv, hp, hcl⟩))
        | false => exact Or.inr (Or.inr (Or.inr hcl))
  · rintro ⟨hv, hnv, -, -⟩
    exact hnv hv
  · rintro ⟨hv, hnv, -, -⟩
    exact hnv hv
  · rintro ⟨hv, he⟩
    rw [VisibleAt] at hv
    rw [EvictAt] at he
    rw [isTileInZone_mono (by norm_num [HIGHRES_MARGIN, CLEANUP_MARGIN]) hv] at he
    exact absurd he (by decide)
  · rintro ⟨hp, -, hnp, -⟩
    exact hnp hp
  · rintro ⟨hp, he⟩
    rw [EvictAt] at he
    rw [isTileInZone_mono (by norm_num [LOWRES_MARGIN, CLEANUP_MARGIN]) hp.2.1] at he
    exact absurd he (by decide)
  · rintro ⟨hk, he⟩
    rw [EvictAt] at he
    rw [hk.2.2] at he
    exact absurd he (by decide)

theorem updateTiles_tiles_has_imp {ok : TKey → Bool} {meta : TileMeta} {panX panY : Rat}
    {st : LoadState} {k : TKey}
    (h : mapHas (updateTiles ok meta panX panY st).tiles k = true) :
    mapHas st.tiles k = true ∨ (k.type = .high ∧ ok k = true) ∨
      (k.type = .low ∧ ok k = true) := by
  have h1 : mapHas
      (if 0 < (lowResToLoadOf meta panX panY st.tiles).length ∧ meta.hasPreview = true then
          loadInBatches ok .low
            (loadInBatches ok .high st (highResToLoadOf meta panX panY st.tiles))
            (lowResToLoadOf meta panX panY st.tiles)
        else loadInBatches ok .high st (highResToLoadOf meta panX panY st.tiles)).tiles
      k = true := mapHas_foldl_mapDelete_imp h
  by_cases hc : 0 < (lowResToLoadOf meta panX panY st.tiles).length ∧ meta.hasPreview = true
  · rw [if_pos hc] at h1
    rcases runBatchesList_has_imp _ _ h1 with h2 | h2
    · rcases runBatchesList_has_imp _ _ h2 with h3 | h3
      · exact Or.inl h3
      · exact Or.inr (Or.inl h3)
    · exact Or.inr (Or.inr h2)
  · rw [if_neg hc] at h1
    rcases runBatchesList_has_imp _ _ h1 with h2 | h2
    · exact Or.inl h2
    · exact Or.inr (Or.inl h2)

theorem updateTiles_warned_gain {ok : TKey → Bool} {meta : TileMeta} {panX panY : Rat}
    {st : LoadState} {req : TileReq}
    (hmem : req ∈ highResToLoadOf meta panX panY st.tiles)
    (hl : keyOf .high req.row req.col ∉ st.loading)
    (hm : mapHas st.tiles (keyOf .high req.row req.col) = false)
    (hok : ok (keyOf .high req.row req.col) = false) :
    keyOf .high req.row req.col ∈ (updateTiles ok meta panX panY st).warned := by
  have hgain : keyOf .high req.row req.col ∈
      (loadInBatches ok .high st (highResToLoadOf meta panX panY st.tiles)).warned := by
    refine runBatchesList_warned_gain _ st ?_ ?_ hl hm hok
    · intro b hb
      exact List.Sublist.nodup (List.Sublist.map _ (chunks_mem_sublist hb))
        nodup_keys_highResToLoadOf
    · rw [chunks_flatten]
      exact hmem
  simp only [updateTiles]
  split_ifs with hc
  · exact runBatchesList_warned_mono _ _ hgain
  · exact hgain

/-- C1 (amended): inserting a Full-tier entry for a (row,col) never releases the resident
Preview entry for that (row,col) — the cache keys are tier-qualified and no release step
exists, so both entries stay resident and a renderer read of the full tier after the
install reports the Full entry (never only the stale Preview). -/
theorem full_insert_keeps_preview (m : TilesMap) (t : Tile) (ht : t.type = .high)
    (k : TKey) (hk : mapHas m k = true) :
    mapHas (installResults m [some t]) k = true ∧
      mapHas (installResults m [some t]) (keyOf .high t.row t.col) = true ∧
      t ∈ tilesOfType .high (installResults m [some t]) := by
  have hinst : installResults m [some t] = mapSet m (keyOf t.type t.row t.col) t := rfl
  refine ⟨?_, ?_, ?_⟩
  · rw [hinst, mapHas_mapSet]
    exact Or.inr hk
  · rw [hinst, ht, mapHas_mapSet]
    exact Or.inl rfl
  · rw [hinst, tilesOfType]
    refine List.mem_filter.mpr ⟨List.mem_map.mpr ⟨_, mem_mapSet_self, rfl⟩, ?_⟩
    rw [ht]
    exact decide_eq_true rfl

/-- C1 counterexample to the claim as stated: after a Full entry for (10,20) is installed
into a cache holding a Preview entry for (10,20), the Preview entry is still resident —
the code has no supersession/release step, so "only the Full entry is kept" is false. -/
theorem full_insert_keeps_preview_cex :
    mapHas
      (installResults
        (installResults []
          [some { row := 10, col := 20, url := endpoint .low 10 20, type := .low,
                  distance := 0 }])
        [some { row := 10, col := 20, url := endpoint .high 10 20, type := .high,
                distance := 0 }])
      (keyOf .low 10 20) = true := by
  rfl

/-- C7: the deduplication guard of `loadTile` — when the key is already in the in-flight
set or already resident in the cache, no request is issued, the in-flight set is
unchanged, and the resulting null resolution installs nothing into any cache. -/
theorem loadTile_dedup (loading : List TKey) (tiles : TilesMap) (ty : TileType)
    (t : TileReq)
    (h : keyOf ty t.row t.col ∈ loading ∨ mapHas tiles (keyOf ty t.row t.col) = true) :
    loadTileIssue loading tiles ty t = (loading, none) ∧
      (∀ (ok : TKey → Bool) (st : LoadState),
        loadTileResolve ok st ty t none = (st, none)) ∧
      (∀ m : TilesMap, installResults m [none] = m) := by
  refine ⟨?_, fun ok st => rfl, fun m => rfl⟩
  simp only [loadTileIssue]
  rw [if_pos h]

/-- C6: the fetch list of a refresh cycle is split in order into batches of at most
`BATCH_SIZE = 12` covering every requested key; each batch starts only from the state in
which the previous batch fully completed, after every batch its successfully loaded tiles
are resident in the cache, residency is never lost between batches, and exactly one
change signal is emitted per batch, so the cache shows partial progress after every
batch. -/
theorem batching_incremental (ok : TKey → Bool) (ty : TileType) (st : LoadState)
    (l : List TileReq) :
    (∀ b ∈ chunks l, 0 < b.length ∧ b.length ≤ BATCH_SIZE) ∧
      (chunks l).flatten = l ∧
      (loadInBatches ok ty st l).signals = st.signals + (chunks l).length ∧
      (∀ (k : Nat) (hk : k < (chunks l).length),
        stateAfterBatches ok ty st l (k + 1) =
          (runBatch ok ty (stateAfterBatches ok ty st l k) ((chunks l).get ⟨k, hk⟩)).1 ∧
        (∀ tile : Tile,
          some tile ∈
              (runBatch ok ty (stateAfterBatches ok ty st l k)
                ((chunks l).get ⟨k, hk⟩)).2 →
            mapHas (stateAfterBatches ok ty st l (k + 1)).tiles
              (keyOf tile.type tile.row tile.col) = true) ∧
        (∀ key : TKey,
          mapHas (stateAfterBatches ok ty st l k).tiles key = true →
            mapHas (stateAfterBatches ok ty st l (k + 1)).tiles key = true)) ∧
      stateAfterBatches ok ty st l (chunks l).length = loadInBatches ok ty st l := by
  refine ⟨fun b hb => chunks_mem_length hb, chunks_flatten l, ?_, ?_,
    stateAfterBatches_full⟩
  · exact runBatchesList_signals (chunks l) st
  · intro k hk
    refine ⟨stateAfterBatches_succ hk, ?_, ?_⟩
    · intro tile hmem
      rw [stateAfterBatches_succ hk, runBatch_tiles_eq, mapHas_installResults]
      exact Or.inr ⟨tile, hmem, rfl⟩
    · intro key hkey
      rw [stateAfterBatches_succ hk, runBatch_tiles_eq, mapHas_installResults]
      exact Or.inl hkey

/-- C8: the initial pan places the center of tile (centerRow, centerCol) exactly at the
viewport center, any state that has not completed initialization renders the loading
placeholder, and when `fetchTileMeta` sets `isInitialized` its cache is the result of one
completed `updateTiles` cycle at the centering pan. -/
theorem init_centering_and_gating (ok : TKey → Bool) (meta : TileMeta) (vs : ViewerState)
    (h : vs.isInitialized = false) :
    (initialPanX meta + viewportCenterX =
        (meta.centerCol : Rat) * meta.tileWidth + meta.tileWidth / 2 ∧
      initialPanY meta + viewportCenterY =
        (meta.centerRow : Rat) * meta.tileHeight + meta.tileHeight / 2) ∧
      render vs = RenderOut.loadingPlaceholder ∧
      (fetchTileMeta ok meta vs).isInitialized = true ∧
      (fetchTileMeta ok meta vs).load =
        updateTiles ok meta (initialPanX meta) (initialPanY meta) vs.load := by
  refine ⟨⟨by rw [initialPanX]; ring, by rw [initialPanY]; ring⟩, ?_, rfl, rfl⟩
  cases hm : vs.tileMeta with
  | none => simp [render, hm]
  | some m => simp [render, hm, h]

/-- C9: when the Full-tier fetch for a Visible tile fails, the cycle leaves no cache entry
for that (Full,row,col), logs a warning for the key, and — the pan being unchanged — the
key reappears in the Full-tier fetch list computed from the resulting cache of the cycle. -/
theorem failed_fetch_retry (ok : TKey → Bool) (meta : TileMeta) (panX panY : Rat)
    (row col : Int) (d : Rat) (st : LoadState)
    (hok : ok (keyOf .high row col) = false)
    (hmem : ({ row := row, col := col, distance := d } : TileReq) ∈
      highResTilesOf meta panX panY)
    (hres : mapHas st.tiles (keyOf .high row col) = false)
    (hload : keyOf .high row col ∉ st.loading) :
    mapHas (updateTiles ok meta panX panY st).tiles (keyOf .high row col) = false ∧
      keyOf .high row col ∈ (updateTiles ok meta panX panY st).warned ∧
      ({ row := row, col := col, distance := d } : TileReq) ∈
        highResToLoadOf meta panX panY (updateTiles ok meta panX panY st).tiles := by
  have hmem' : ({ row := row, col := col, distance := d } : TileReq) ∈
      highResToLoadOf meta panX panY st.tiles := by
    rw [highResToLoadOf]
    refine List.mem_filter.mpr ⟨mem_sortByDist.mpr hmem, ?_⟩
    show (!mapHas st.tiles (keyOf .high row col)) = true
    rw [hres]
    rfl
  have habsent : mapHas (updateTiles ok meta panX panY st).tiles
      (keyOf .high row col) = false := by
    cases hh : mapHas (updateTiles ok meta panX panY st).tiles (keyOf .high row col) with
    | false => rfl
    | true =>
      rcases updateTiles_tiles_has_imp hh with h | h | h
      · rw [hres] at h
        exact absurd h (by decide)
      · have h2 := h.2
        rw [hok] at h2
        exact absurd h2 (by decide)
      · exact absurd h.1 (by simp [keyOf])
  refine ⟨habsent, ?_, ?_⟩
  · exact updateTiles_warned_gain hmem' hload hres hok
  · rw [highResToLoadOf]
    refine List.mem_filter.mpr ⟨mem_sortByDist.mpr hmem, ?_⟩
    show (!mapHas (updateTiles ok meta panX panY st).tiles (keyOf .high row col)) = true
    rw [habsent]
    rfl

/-- C10: the zone test is strict rectangle overlap — true exactly when all four strict
inequalities hold — so a tile whose left edge abuts the right edge of the zone is outside the
zone: it is not classified for the visible or preview fetch lists, and for the cleanup
zone a resident entry at those coordinates lands in the eviction set. -/
theorem strict_zone_boundaries (meta : TileMeta) (row col : Int) (panX panY margin : Rat) :
    (isTileInZone row col panX panY meta.tileWidth meta.tileHeight margin = true ↔
        panX - margin < ((col : Rat) + 1) * meta.tileWidth ∧
          (col : Rat) * meta.tileWidth < panX + viewportWidth + margin ∧
          panY - margin < ((row : Rat) + 1) * meta.tileHeight ∧
          (row : Rat) * meta.tileHeight < panY + viewportHeight + margin) ∧
      ((col : Rat) * meta.tileWidth = panX + viewportWidth + margin →
        isTileInZone row col panX panY meta.tileWidth meta.tileHeight margin = false) ∧
      ((col : Rat) * meta.tileWidth = panX + viewportWidth + HIGHRES_MARGIN →
        ∀ d : Rat, ({ row := row, col := col, distance := d } : TileReq) ∉
          highResTilesOf meta panX panY) ∧
      ((col : Rat) * meta.tileWidth = panX + viewportWidth + LOWRES_MARGIN →
        ∀ d : Rat, ({ row := row, col := col, distance := d } : TileReq) ∉
          lowResTilesOf meta panX panY) ∧
      ((col : Rat) * meta.tileWidth = panX + viewportWidth + CLEANUP_MARGIN →
        ∀ (m : TilesMap) (k : TKey) (tile : Tile), (k, tile) ∈ m → tile.row = row →
          tile.col = col → k ∈ tilesToRemoveOf m meta panX panY) := by
  have habut : ∀ mg : Rat, (col : Rat) * meta.tileWidth = panX + viewportWidth + mg →
      isTileInZone row col panX panY meta.tileWidth meta.tileHeight mg = false := by
    intro mg hmg
    cases hz : isTileInZone row col panX panY meta.tileWidth meta.tileHeight mg with
    | false => rfl
    | true =>
      rw [isTileInZone_iff] at hz
      exact absurd hz.2.1 (by rw [hmg]; exact lt_irrefl _)
  refine ⟨isTileInZone_iff, habut margin, ?_, ?_, ?_⟩
  · intro hmg d hmem
    have hz : isTileInZone row col panX panY meta.tileWidth meta.tileHeight
        HIGHRES_MARGIN = true := (mem_highResTilesOf.mp hmem).2.2.1
    rw [habut HIGHRES_MARGIN hmg] at hz
    exact absurd hz (by decide)
  · intro hmg d hmem
    have hz : isTileInZone row col panX panY meta.tileWidth meta.tileHeight
        LOWRES_MARGIN = true := (mem_lowResTilesOf.mp hmem).2.2.2.1
    rw [habut LOWRES_MARGIN hmg] at hz
    exact absurd hz (by decide)
  · intro hmg m k tile hmem hr hc
    rw [tilesToRemoveOf]
    refine List.mem_map.mpr ⟨(k, tile), List.mem_filter.mpr ⟨hmem, ?_⟩, rfl⟩
    rw [Bool.not_eq_true', hr, hc]
    exact habut CLEANUP_MARGIN hmg

theorem centerRowOf_metaW : centerRowOf metaW 0 = 0 := by
  rw [centerRowOf]
  norm_num [metaW, viewportCenterY, viewportHeight]

theorem centerColOf_metaW : centerColOf metaW 0 = 0 := by
  rw [centerColOf]
  norm_num [metaW, viewportCenterX, viewportWidth]

theorem scanTilesY_metaW : scanTilesY metaW = 9 := by
  have h : (⌈(viewportHeight + CLEANUP_MARGIN * 2) / metaW.tileHeight⌉ : Int) = 7 := by
    rw [Int.ceil_eq_iff]
    norm_num [viewportHeight, CLEANUP_MARGIN, metaW]
  rw [scanTilesY, h]
  decide

theorem scanTilesX_metaW : scanTilesX metaW = 10 := by
  have h : (⌈(viewportWidth + CLEANUP_MARGIN * 2) / metaW.tileWidth⌉ : Int) = 8 := by
    rw [Int.ceil_eq_iff]
    norm_num [viewportWidth, CLEANUP_MARGIN, metaW]
  rw [scanTilesX, h]
  decide

theorem window_metaW_00 : ((0 : Int), (0 : Int)) ∈ scanIndices metaW 0 0 := by
  rw [mem_scanIndices, centerRowOf_metaW, centerColOf_metaW, scanTilesY_metaW,
    scanTilesX_metaW]
  omega

theorem window_metaW_02 : ((0 : Int), (2 : Int)) ∈ scanIndices metaW 0 0 := by
  rw [mem_scanIndices, centerRowOf_metaW, centerColOf_metaW, scanTilesY_metaW,
    scanTilesX_metaW]
  omega

theorem zone_metaW_00_high :
    isTileInZone 0 0 0 0 metaW.tileWidth metaW.tileHeight HIGHRES_MARGIN = true := by
  rw [isTileInZone_iff]
  norm_num [metaW, HIGHRES_MARGIN, viewportWidth, viewportHeight]

theorem zone_metaW_02_cleanup :
    isTileInZone 0 2 0 0 metaW.tileWidth metaW.tileHeight CLEANUP_MARGIN = true := by
  rw [isTileInZone_iff]
  norm_num [metaW, CLEANUP_MARGIN, viewportWidth, viewportHeight]

/-- C2 counterexample to the three-class partition as stated: tile (0,2) of the concrete
tileset at pan (0,0) is inside the scan window and grid bounds, yet is neither Visible nor
Preview-band nor Evict — it sits in the gap between the preview band and the cleanup
boundary, so the three classes do not cover the scan window. -/
theorem zone_partition_gap :
    ((0 : Int), (2 : Int)) ∈ scanIndices metaW 0 0 ∧ inBoundsB metaW 0 2 = true ∧
      ¬VisibleAt metaW 0 0 0 2 ∧ ¬PreviewBandAt metaW 0 0 0 2 ∧
      ¬EvictAt metaW 0 0 0 2 := by
  refine ⟨window_metaW_02, by decide, ?_, ?_, ?_⟩
  · intro hv
    rw [VisibleAt, isTileInZone_iff] at hv
    have h2 := hv.2.1
    norm_num [metaW, HIGHRES_MARGIN, viewportWidth] at h2
  · intro hp
    have h2 := hp.2.1
    rw [isTileInZone_iff] at h2
    have h3 := h2.2.1
    norm_num [metaW, LOWRES_MARGIN, viewportWidth] at h3
  · intro he
    rw [EvictAt, zone_metaW_02_cleanup] at he
    exact absurd he (by decide)

theorem full_insert_keeps_preview_witness :
    mapHas
      (installResults
        [(keyOf .low 10 20, (⟨10, 20, endpoint .low 10 20, .low, 0⟩ : Tile))]
        [some (⟨10, 20, endpoint .high 10 20, .high, 0⟩ : Tile)])
      (keyOf .low 10 20) = true :=
  (full_insert_keeps_preview _ _ rfl (keyOf .low 10 20) (by rfl)).1

theorem zone_partition_four_witness :
    VisibleAt metaW 0 0 0 0 ∨ PreviewBandAt metaW 0 0 0 0 ∨ KeepAt metaW 0 0 0 0 ∨
      EvictAt metaW 0 0 0 0 :=
  (zone_partition_four metaW 0 0 0 0 window_metaW_00 (by decide)).1

theorem eviction_safety_witness :
    keyOf .high 0 0 ∉ tilesToRemoveOf [(keyOf .high 0 0, tileW00)] metaW 0 0 := by
  have hmem : (⟨0, 0, calculateTileDistanceSq 0 0 (0 + viewportCenterX)
      (0 + viewportCenterY) metaW.tileWidth metaW.tileHeight⟩ : TileReq) ∈
        highResTilesOf metaW 0 0 :=
    mem_highResTilesOf.mpr ⟨window_metaW_00, by decide, zone_metaW_00_high, rfl⟩
  refine eviction_safety metaW 0 0 _ _ ?_ (Or.inl hmem) .high
  intro p hp
  rcases List.mem_singleton.mp hp with rfl
  exact ⟨rfl, rfl⟩

theorem scan_window_completeness_witness :
    ((0 : Int), (2 : Int)) ∈ scanIndices metaW 0 0 :=
  scan_window_completeness metaW 0 0 0 2 (by norm_num [metaW]) (by norm_num [metaW])
    (by decide) zone_metaW_02_cleanup

theorem batching_incremental_witness :
    (chunks reqsW).flatten = reqsW ∧
      (loadInBatches okAll .high emptyLoad reqsW).signals = 2 ∧
      stateAfterBatches okAll .high emptyLoad reqsW (0 + 1) =
        (runBatch okAll .high emptyLoad (reqsW.take BATCH_SIZE)).1 := by
  have h := batching_incremental okAll .high emptyLoad reqsW
  have hk : 0 < (chunks reqsW).length := by decide
  refine ⟨h.2.1, ?_, ?_⟩
  · rw [h.2.2.1]
    decide
  · rw [(h.2.2.2.1 0 hk).1]
    rfl

theorem loadTile_dedup_witness :
    loadTileIssue [keyOf .high 0 0] [] .high { row := 0, col := 0, distance := 0 } =
      ([keyOf .high 0 0], none) :=
  (loadTile_dedup [keyOf .high 0 0] [] .high { row := 0, col := 0, distance := 0 }
    (Or.inl (List.mem_singleton.mpr rfl))).1

theorem init_centering_and_gating_witness :
    render initialViewerState = RenderOut.loadingPlaceholder ∧
      (fetchTileMeta okAll metaW initialViewerState).isInitialized = true := by
  have h := init_centering_and_gating okAll metaW initialViewerState rfl
  exact ⟨h.2.1, h.2.2.1⟩

theorem failed_fetch_retry_witness :
    mapHas (updateTiles okNone metaW 0 0 emptyLoad).tiles (keyOf .high 0 0) = false ∧
      keyOf .high 0 0 ∈ (updateTiles okNone metaW 0 0 emptyLoad).warned := by
  have h := failed_fetch_retry okNone metaW 0 0 0 0
    (calculateTileDistanceSq 0 0 (0 + viewportCenterX) (0 + viewportCenterY)
      metaW.tileWidth metaW.tileHeight) emptyLoad rfl
    (mem_highResTilesOf.mpr ⟨window_metaW_00, by decide, zone_metaW_00_high, rfl⟩)
    rfl (by simp [emptyLoad])
  exact ⟨h.1, h.2.1⟩

theorem strict_zone_boundaries_witness :
    isTileInZone 0 1 0 0 metaW.tileWidth metaW.tileHeight 0 = false ∧
      ({ row := 0, col := 1, distance := 0 } : TileReq) ∉ highResTilesOf metaW 0 0 ∧
      keyOf .high 0 5 ∈ tilesToRemoveOf
        [(keyOf .high 0 5, (⟨0, 5, endpoint .high 0 5, .high, 0⟩ : Tile))]
        metaW 1000 0 := by
  refine ⟨?_, ?_, ?_⟩
  · exact (strict_zone_boundaries metaW 0 1 0 0 0).2.1
      (by norm_num [metaW, viewportWidth])
  · exact (strict_zone_boundaries metaW 0 1 0 0 0).2.2.1
      (by norm_num [metaW, viewportWidth, HIGHRES_MARGIN]) 0
  · exact (strict_zone_boundaries metaW 0 5 1000 0 0).2.2.2.2
      (by norm_num [metaW, viewportWidth, CLEANUP_MARGIN]) _ _ _
      (List.mem_singleton.mpr rfl) rfl rfl

end TileViewer
